import Mathlib

/-!
Verification of the go-to-definition resolution core of the dryck-syntax
VS Code extension (`extension.js`).  The JavaScript source is shallowly
embedded: the host editor's capabilities (file existence checks, workspace
file search, document/workspace symbol providers, the type-hierarchy
provider) are modelled as an explicit environment record of pure functions,
strings are modelled as lists of UTF-16 units (`List Char`; every character
involved is in the BMP, so one `Char` is one JS string position), and the
unbounded `while` loop of the inheritance breadth-first search is embedded
with an explicit fuel parameter (`none` = the loop has not finished within
the given fuel).
-/

namespace Dryck

/-- A `vscode.Uri`: the source uses both `uri.toString()` (for dedup keys)
and `uri.fsPath` (for path checks), so both are carried. -/
structure Uri where
  toStr : String
  fsPath : String
deriving DecidableEq

/-- `vscode.Uri.file(path)`. -/
def Uri.file (p : String) : Uri := ⟨"file://" ++ p, p⟩

/-- A `vscode.Position` (line/character). -/
structure Pos where
  line : Nat
  character : Nat
deriving DecidableEq

/-- A `vscode.Range`; the source field `end` is a Lean keyword, renamed `stop`. -/
structure Range where
  start : Pos
  stop : Pos
deriving DecidableEq

/-- A `vscode.Location`: a uri plus a range (a `Position` argument to the
`Location` constructor becomes the empty range at that position). -/
structure Location where
  uri : Uri
  range : Range
deriving DecidableEq

/-- The `vscode.SymbolKind` values the source distinguishes; all others are
collapsed into `Other`. -/
inductive SymbolKind where
  | Function : SymbolKind
  | Method : SymbolKind
  | Class : SymbolKind
  | Variable : SymbolKind
  | Other : SymbolKind
deriving DecidableEq

/-- A document outline symbol (`DocumentSymbol`); `range` and
`selectionRange` may be absent (the source tests their truthiness). -/
structure DocSym where
  name : String
  kind : SymbolKind
  range : Option Range
  selectionRange : Option Range
deriving DecidableEq

/-- A workspace symbol (`SymbolInformation`): name, kind, location and the
optional `containerName` hint. -/
structure Sym where
  name : String
  kind : SymbolKind
  location : Location
  containerName : Option String
deriving DecidableEq

/-- A `TypeHierarchyItem` handle; only the fields the source reads. -/
structure Item where
  uri : Uri
  name : String
deriving DecidableEq

/-- A text document: its uri and its lines. -/
structure Document where
  uri : Uri
  lines : List String
deriving DecidableEq

/-- The host-editor capabilities consumed by `extension.js`, as pure
functions.  `none` models a provider returning `undefined`/`null`. -/
structure Env where
  docSymbols : Uri → Option (List DocSym)
  prepareTypeHierarchy : Uri → Pos → Option (List Item)
  supertypes : Item → Option (List Item)
  workspaceSymbols : String → Option (List Sym)
  existsSync : String → Bool
  findFiles : String → Nat → List Uri

/-! ## String helpers -/

/-- JavaScript `haystack.includes(needle)` on lists of characters. -/
def listIncludes (needle : List Char) : List Char → Bool
  | [] => needle.isEmpty
  | c :: rest => needle.isPrefixOf (c :: rest) || listIncludes needle rest

/-- JavaScript `s.includes(sub)`. -/
def strIncludes (s sub : String) : Bool := listIncludes sub.data s.data

/-- Shallow model of Node's `path.join(a, b)`: the two segments joined by a
separator.  `..` segments are not normalized away; the existence oracle of
the environment sees the unnormalized candidate string, which only renames
candidates and does not affect the resolution order being verified. -/
def pathJoin (a b : String) : String := a ++ "/" ++ b

/-- The characters before the last `/`, or `none` when there is none. -/
def beforeLastSlash : List Char → Option (List Char)
  | [] => none
  | c :: rest =>
    match beforeLastSlash rest with
    | some pre => some (c :: pre)
    | none => if c = '/' then some [] else none

/-- Shallow model of Node's `path.dirname` (POSIX): drop the final path
segment.  Root-path edge cases are not exercised by any claim. -/
def dirname (p : String) : String :=
  match beforeLastSlash p.data with
  | some pre => String.mk pre
  | none => "."

/-! ## Reference tokenizer (`extractFunctionName`, lines 14-41)

The three regular expressions are compiled by hand.  Because every
character class involved excludes the character that must follow the
greedy star (`)` after `[a-zA-Z0-9_.]*`, `:`/whitespace after
`[a-zA-Z0-9_-]*`), the regex engine's backtracking can never shorten the
greedy run, so each pattern is equivalent to a maximal `takeWhile` run
followed by a literal check; `exec` with the `g` flag enumerates
non-overlapping matches left to right. -/

/-- `[a-zA-Z]` -/
def isAsciiLetter (c : Char) : Bool :=
  (('a' ≤ c) && (c ≤ 'z')) || (('A' ≤ c) && (c ≤ 'Z'))

/-- `[0-9]` -/
def isDigitB (c : Char) : Bool := ('0' ≤ c) && (c ≤ '9')

/-- `[a-zA-Z_]` -/
def isIdentStart (c : Char) : Bool := isAsciiLetter c || c = '_'

/-- `[a-zA-Z_.]` — first character inside `◊(...)`. -/
def isParenNameStart (c : Char) : Bool := isIdentStart c || c = '.'

/-- `[a-zA-Z0-9_.]` — subsequent characters inside `◊(...)`. -/
def isParenNameChar (c : Char) : Bool := isIdentStart c || isDigitB c || c = '.'

/-- `[a-zA-Z0-9_-]` — subsequent characters of the colon/bare forms. -/
def isBareNameChar (c : Char) : Bool := isIdentStart c || isDigitB c || c = '-'

/-- JavaScript `\s`. -/
def isJsSpace (c : Char) : Bool :=
  c = ' ' || c = '\t' || c = '\n' || c = '\r' ||
  c = Char.ofNat 0x0B || c = Char.ofNat 0x0C || c = Char.ofNat 0xA0 ||
  c = Char.ofNat 0x1680 ||
  (Char.ofNat 0x2000 ≤ c && c ≤ Char.ofNat 0x200A) ||
  c = Char.ofNat 0x2028 || c = Char.ofNat 0x2029 || c = Char.ofNat 0x202F ||
  c = Char.ofNat 0x205F || c = Char.ofNat 0x3000 || c = Char.ofNat 0xFEFF

/-- A matcher takes the suffix of the line starting at a candidate position
and returns the captured name and the length of the full match `m[0]`. -/
abbrev Matcher := List Char → Option (String × Nat)

/-- `/◊\(([a-zA-Z_.][a-zA-Z0-9_.]*)\)/` at a fixed position. -/
def matchParen : Matcher
  | c0 :: c1 :: c2 :: rest =>
    if c0 = '◊' then
      if c1 = '(' then
        if isParenNameStart c2 then
          let run := rest.takeWhile isParenNameChar
          match rest.dropWhile isParenNameChar with
          | d :: _ => if d = ')' then some (String.mk (c2 :: run), run.length + 4) else none
          | [] => none
        else none
      else none
    else none
  | _ => none

/-- `/◊([a-zA-Z_][a-zA-Z0-9_-]*)(?=\s*:)/` at a fixed position (the
lookahead is not part of `m[0]`). -/
def matchColon : Matcher
  | c0 :: c1 :: rest =>
    if c0 = '◊' then
      if isIdentStart c1 then
        let run := rest.takeWhile isBareNameChar
        match (rest.dropWhile isBareNameChar).dropWhile isJsSpace with
        | d :: _ => if d = ':' then some (String.mk (c1 :: run), run.length + 2) else none
        | [] => none
      else none
    else none
  | _ => none

/-- `/◊([a-zA-Z_][a-zA-Z0-9_-]*)/` at a fixed position. -/
def matchBare : Matcher
  | c0 :: c1 :: rest =>
    if c0 = '◊' then
      if isIdentStart c1 then
        let run := rest.takeWhile isBareNameChar
        some (String.mk (c1 :: run), run.length + 2)
      else none
    else none
  | _ => none

/-- One match of the `exec` loop: `start = m.index`,
`stop = m.index + m[0].length`, `name = m[1]`. -/
structure TokMatch where
  start : Nat
  stop : Nat
  name : String
deriving DecidableEq

/-- One step of repeated `re.exec(line)`, with an explicit recursion bound
(every match is nonempty, so the text strictly shrinks each step and a
bound equal to the text length is always enough — see `scanAuxF_congr`).
The bound keeps the definition structurally recursive, hence fully
evaluable by the kernel. -/
def scanAuxF (p : Matcher) : Nat → List Char → Nat → List TokMatch
  | 0, _, _ => []
  | _ + 1, [], _ => []
  | bound + 1, c :: rest, i =>
    match p (c :: rest) with
    | some (nm, len) => ⟨i, i + len, nm⟩ :: scanAuxF p bound (rest.drop (len - 1)) (i + len)
    | none => scanAuxF p bound rest (i + 1)

/-- The sequence of matches produced by repeated `re.exec(line)`: the
leftmost match at or after the current position, then continue after its
end (`lastIndex` always advances). -/
def scanAux (p : Matcher) (cs : List Char) (i : Nat) : List TokMatch :=
  scanAuxF p cs.length cs i

/-- All matches of one pattern on a line. -/
def lineMatches (p : Matcher) (line : List Char) : List TokMatch := scanAux p line 0

/-- `col >= start && col <= end` — both boundaries inclusive. -/
def containsCol (col : Nat) (m : TokMatch) : Bool :=
  decide (m.start ≤ col) && decide (col ≤ m.stop)

/-- The inner `while ((m = re.exec(line)) !== null)` loop: the first match
of this pattern whose span contains the cursor column. -/
def firstContaining (p : Matcher) (line : List Char) (col : Nat) : Option String :=
  ((lineMatches p line).find? (containsCol col)).map TokMatch.name

/-- The pattern loop of `extractFunctionName`: parenthesized, then colon,
then bare form. -/
def extractFromLine (line : List Char) (col : Nat) : Option String :=
  match firstContaining matchParen line col with
  | some n => some n
  | none =>
    match firstContaining matchColon line col with
    | some n => some n
    | none => firstContaining matchBare line col

/-- `extractFunctionName(document, position)` (lines 14-41). -/
def extractFunctionName (doc : Document) (pos : Pos) : Option String :=
  extractFromLine (doc.lines.getD pos.line "").data pos.character

/-! ## Local file resolver (`findDryckFile`, lines 48-76) -/

/-- `findDryckFile(name, fromDir)`: current directory, then parent, then a
workspace-wide glob, trying the plain filename before the
underscore-prefixed one in each scope. -/
def findDryckFile (env : Env) (name fromDir : String) : Option Uri :=
  let filenames := [name ++ ".dryck", "_" ++ name ++ ".dryck"]
  match filenames.findSome? (fun fn =>
      let candidate := pathJoin fromDir fn
      if env.existsSync candidate then some (Uri.file candidate) else none) with
  | some u => some u
  | none =>
    match filenames.findSome? (fun fn =>
        let candidate := pathJoin (pathJoin fromDir "..") fn
        if env.existsSync candidate then some (Uri.file candidate) else none) with
    | some u => some u
    | none =>
      filenames.findSome? (fun fn => (env.findFiles ("**/" ++ fn) 1).head?)

/-- The six file candidates, in the priority order stated by the spec: a
directory-scope existence probe or a workspace-wide search pattern. -/
inductive Cand where
  | dir : String → Cand
  | ws : String → Cand
deriving DecidableEq

/-- The candidate order claimed by the spec: plain then underscore variant
in the current directory, then in the parent, then workspace-wide. -/
def candidates (name fromDir : String) : List Cand :=
  [ .dir (pathJoin fromDir (name ++ ".dryck")),
    .dir (pathJoin fromDir ("_" ++ name ++ ".dryck")),
    .dir (pathJoin (pathJoin fromDir "..") (name ++ ".dryck")),
    .dir (pathJoin (pathJoin fromDir "..") ("_" ++ name ++ ".dryck")),
    .ws ("**/" ++ (name ++ ".dryck")),
    .ws ("**/" ++ ("_" ++ name ++ ".dryck")) ]

/-- Evaluate one candidate against the environment (one result requested
from the workspace search). -/
def evalCand (env : Env) : Cand → Option Uri
  | .dir p => if env.existsSync p then some (Uri.file p) else none
  | .ws pat => (env.findFiles pat 1).head?

/-! ## Containing-scope lookup (`findContainingClassName`, lines 138-156) -/

/-- The `for (const sym of docSymbols)` loop of `findContainingClassName`
with its `continue`s: skip non-classes and symbols without a range, return
the first class whose range's lines bracket the position's line. -/
def fccnLoop (p : Pos) : List DocSym → Option String
  | [] => none
  | sym :: rest =>
    match sym.range with
    | none => fccnLoop p rest
    | some r =>
      if sym.kind = SymbolKind.Class then
        if r.start.line ≤ p.line ∧ p.line ≤ r.stop.line then some sym.name
        else fccnLoop p rest
      else fccnLoop p rest

/-- `findContainingClassName(fileUri, position)` (lines 138-156): linear
scan of the outline symbols for the first class whose range's lines
bracket the position's line. -/
def findContainingClassName (env : Env) (fileUri : Uri) (position : Pos) : Option String :=
  match env.docSymbols fileUri with
  | none => none
  | some syms => fccnLoop position syms

/-! ## Ancestry walker (`isContextSubclass`, lines 83-131) -/

/-- The dedup key `sup.uri.toString() + ':' + sup.name`. -/
def itemKey (it : Item) : String := it.uri.toStr ++ ":" ++ it.name

/-- The base test `sup.name === 'Context' && sup.uri.fsPath.includes('appeldryck')`. -/
def isBaseItem (it : Item) : Bool :=
  it.name == "Context" && strIncludes it.uri.fsPath "appeldryck"

/-- Result of the `for (const sup of supertypes)` loop body: either the
early `return true`, or the updated visited set and queue. -/
inductive VisitRes where
  | found : VisitRes
  | cont : List String → List Item → VisitRes

/-- The `for (const sup of supertypes)` loop: skip visited keys, mark the
key visited, test the base criteria, else enqueue at the back. -/
def visitLoop : List Item → List String → List Item → VisitRes
  | [], visited, queue => .cont visited queue
  | sup :: rest, visited, queue =>
    let key := itemKey sup
    if key ∈ visited then visitLoop rest visited queue
    else
      let visited' := key :: visited
      if isBaseItem sup then .found
      else visitLoop rest visited' (queue ++ [sup])

/-- The `while (queue.length > 0)` breadth-first search, with fuel counting
loop iterations; `none` means the loop did not finish within the fuel. -/
def bfsAux (env : Env) : Nat → List String → List Item → Option Bool
  | _, _, [] => some false
  | 0, _, _ :: _ => none
  | fuel + 1, visited, item :: queue =>
    match env.supertypes item with
    | none => bfsAux env fuel visited queue
    | some sups =>
      match visitLoop sups visited queue with
      | .found => some true
      | .cont visited' queue' => bfsAux env fuel visited' queue'

/-- The predicate of `docSymbols.find(s => s.name === className &&
s.kind === vscode.SymbolKind.Class && s.selectionRange)`. -/
def classSymPred (className : String) (s : DocSym) : Bool :=
  s.name == className && s.kind == SymbolKind.Class && s.selectionRange.isSome

/-- `isContextSubclass(fileUri, className)` (lines 83-131). -/
def isContextSubclass (env : Env) (fuel : Nat) (fileUri : Uri) (className : String) :
    Option Bool :=
  match env.docSymbols fileUri with
  | none => some false
  | some docSymbols =>
    match docSymbols.find? (classSymPred className) with
    | none => some false
    | some classSym =>
      match classSym.selectionRange with
      | none => some false
      | some sr =>
        match env.prepareTypeHierarchy fileUri sr.start with
        | none => some false
        | some items =>
          if items.isEmpty then some false
          else bfsAux env fuel [] items

/-! ### Instrumented breadth-first search

The same loop, additionally logging every item pushed onto the queue; used
to reason about how many times a node is enqueued.  `bfsAuxL_fst` proves
the instrumentation does not change the computed answer. -/

/-- `visitLoop` with an enqueue log. -/
inductive VisitResL where
  | found : VisitResL
  | cont : List String → List Item → List Item → VisitResL

/-- The supertype loop, logging each `queue.push(sup)`. -/
def visitLoopL : List Item → List String → List Item → List Item → VisitResL
  | [], visited, queue, log => .cont visited queue log
  | sup :: rest, visited, queue, log =>
    let key := itemKey sup
    if key ∈ visited then visitLoopL rest visited queue log
    else
      let visited' := key :: visited
      if isBaseItem sup then .found
      else visitLoopL rest visited' (queue ++ [sup]) (log ++ [sup])

/-- The breadth-first search, returning the answer and the push log. -/
def bfsAuxL (env : Env) : Nat → List String → List Item → List Item →
    Option Bool × List Item
  | _, _, [], log => (some false, log)
  | 0, _, _ :: _, log => (none, log)
  | fuel + 1, visited, item :: queue, log =>
    match env.supertypes item with
    | none => bfsAuxL env fuel visited queue log
    | some sups =>
      match visitLoopL sups visited queue log with
      | .found => (some true, log)
      | .cont visited' queue' log' => bfsAuxL env fuel visited' queue' log'

/-- Everything ever enqueued in a run started from `items`: the initial
`const queue = [...items]` plus every later `queue.push`. -/
def bfsEnqueues (env : Env) (fuel : Nat) (items : List Item) : List Item :=
  items ++ (bfsAuxL env fuel [] items []).2

/-! ## Foreign symbol resolver (`findPythonDefinition`, lines 163-184) -/

/-- `new vscode.Location(s.location.uri, s.location.range)`. -/
def mkLocation (s : Sym) : Location := ⟨s.location.uri, s.location.range⟩

/-- `s.containerName || await findContainingClassName(...)` — JavaScript
`||` falls through on the empty string as well as on null/undefined. -/
def classNameOf (env : Env) (s : Sym) : Option String :=
  match s.containerName with
  | some c =>
    if c = "" then findContainingClassName env s.location.uri s.location.range.start
    else some c
  | none => findContainingClassName env s.location.uri s.location.range.start

/-- The `for (const s of symbols)` loop of `findPythonDefinition`; `none`
propagates fuel exhaustion of the inner ancestry check. -/
def fpdLoop (env : Env) (fuel : Nat) (name : String) : List Sym → Option (List Location)
  | [] => some []
  | s :: rest =>
    if s.name ≠ name then fpdLoop env fuel name rest
    else if s.kind = SymbolKind.Function then
      (fpdLoop env fuel name rest).map (fun ls => mkLocation s :: ls)
    else if s.kind = SymbolKind.Method then
      match classNameOf env s with
      | none => fpdLoop env fuel name rest
      | some c =>
        if c = "" then fpdLoop env fuel name rest
        else
          match isContextSubclass env fuel s.location.uri c with
          | none => none
          | some true => (fpdLoop env fuel name rest).map (fun ls => mkLocation s :: ls)
          | some false => fpdLoop env fuel name rest
    else fpdLoop env fuel name rest

/-- `findPythonDefinition(name)` (lines 163-184). -/
def findPythonDefinition (env : Env) (fuel : Nat) (name : String) :
    Option (List Location) :=
  match env.workspaceSymbols name with
  | none => some []
  | some symbols => if symbols.isEmpty then some [] else fpdLoop env fuel name symbols

/-- The keep/discard rule for one workspace-symbol match, as the spec
states it: exact-name matches of `Function` kind are kept unconditionally;
`Method` matches are kept exactly when an enclosing class name is found
(container hint when truthy, else the containing-scope lookup) and the
ancestry walker confirms it; everything else is discarded. -/
def keepSym (env : Env) (fuel : Nat) (name : String) (s : Sym) : Option Bool :=
  if s.name = name then
    if s.kind = SymbolKind.Function then some true
    else if s.kind = SymbolKind.Method then
      match classNameOf env s with
      | none => some false
      | some c =>
        if c = "" then some false
        else isContextSubclass env fuel s.location.uri c
    else some false
  else some false

/-! ## Resolution orchestrator (`provideDefinition`, lines 186-203) -/

/-- The three result shapes `provideDefinition` can produce: JavaScript
`null`, a single `Location`, or the array from the Python fallback. -/
inductive JsDefResult where
  | jsNull : JsDefResult
  | one : Location → JsDefResult
  | many : List Location → JsDefResult
deriving DecidableEq

/-- `provideDefinition(document, position)` (lines 186-203). -/
def provideDefinition (env : Env) (fuel : Nat) (doc : Document) (pos : Pos) :
    Option JsDefResult :=
  match extractFunctionName doc pos with
  | none => some .jsNull
  | some name =>
    let fromDir := dirname doc.uri.fsPath
    match findDryckFile env name fromDir with
    | some uri => some (.one ⟨uri, ⟨⟨0, 0⟩, ⟨0, 0⟩⟩⟩)
    | none =>
      if !strIncludes name "." then (findPythonDefinition env fuel name).map .many
      else some .jsNull

/-! ## Concrete fixtures

Small closed environments used to evaluate the verified statements on
explicit inputs. -/

def uriA : Uri := ⟨"file:///w/a.py", "/w/a.py"⟩

def uriB : Uri := ⟨"file:///w/b.py", "/w/b.py"⟩

def uriCtx : Uri := ⟨"file:///lib/appeldryck/helpers.py", "/lib/appeldryck/helpers.py"⟩

def itemA : Item := ⟨uriA, "A"⟩

def itemB : Item := ⟨uriA, "B"⟩

def itemC : Item := ⟨uriA, "C"⟩

def itemPage : Item := ⟨uriA, "Page"⟩

def itemCtx : Item := ⟨uriCtx, "Context"⟩

/-- A hierarchy whose only class is its own direct supertype. -/
def envCyc : Env where
  docSymbols := fun _ => none
  prepareTypeHierarchy := fun _ _ => none
  supertypes := fun it => if it = itemA then some [itemA] else some []
  workspaceSymbols := fun _ => none
  existsSync := fun _ => false
  findFiles := fun _ _ => []

/-- A three-class inheritance cycle `A → B → C → A`, none of them the
well-known base. -/
def envCyc3 : Env where
  docSymbols := fun _ => none
  prepareTypeHierarchy := fun _ _ => none
  supertypes := fun it =>
    if it = itemA then some [itemB]
    else if it = itemB then some [itemC]
    else if it = itemC then some [itemA]
    else some []
  workspaceSymbols := fun _ => none
  existsSync := fun _ => false
  findFiles := fun _ _ => []

/-- The key universe of `envCyc3`. -/
def keys3 : List String := [itemKey itemA, itemKey itemB, itemKey itemC]

def rngPage : Range := ⟨⟨3, 0⟩, ⟨3, 6⟩⟩

def pageDocSym : DocSym := ⟨"Page", SymbolKind.Class, some ⟨⟨3, 0⟩, ⟨20, 0⟩⟩, some rngPage⟩

/-- A working type hierarchy: class `Page` in `/w/a.py` with the
well-known base as its direct supertype. -/
def envHier : Env where
  docSymbols := fun u => if u = uriA then some [pageDocSym] else none
  prepareTypeHierarchy := fun u p =>
    if u = uriA ∧ p = rngPage.start then some [itemPage] else none
  supertypes := fun it => if it = itemPage then some [itemCtx] else some []
  workspaceSymbols := fun _ => none
  existsSync := fun _ => false
  findFiles := fun _ _ => []

/-- Outline symbols present, but the type-hierarchy capability is absent —
even though `Page`'s ancestry would be discoverable from its declaration
header `class Page(appeldryck.Context)` by a definition-chasing fallback. -/
def envNoHier : Env where
  docSymbols := fun u => if u = uriA then some [pageDocSym] else none
  prepareTypeHierarchy := fun _ _ => none
  supertypes := fun it => if it = itemPage then some [itemCtx] else some []
  workspaceSymbols := fun _ => none
  existsSync := fun _ => false
  findFiles := fun _ _ => []

def rngCtx : Range := ⟨⟨1, 0⟩, ⟨1, 7⟩⟩

def ctxDocSym : DocSym := ⟨"Context", SymbolKind.Class, some ⟨⟨1, 0⟩, ⟨40, 0⟩⟩, some rngCtx⟩

/-- The well-known base class queried about itself: its root hierarchy
node is the base, and it has no supertypes at all. -/
def envSelfBase : Env where
  docSymbols := fun u => if u = uriCtx then some [ctxDocSym] else none
  prepareTypeHierarchy := fun u p =>
    if u = uriCtx ∧ p = rngCtx.start then some [itemCtx] else none
  supertypes := fun _ => some []
  workspaceSymbols := fun _ => none
  existsSync := fun _ => false
  findFiles := fun _ _ => []

def funcSym : Sym := ⟨"render", SymbolKind.Function, ⟨uriB, ⟨⟨1, 0⟩, ⟨1, 6⟩⟩⟩, none⟩

def methodSym : Sym := ⟨"render", SymbolKind.Method, ⟨uriA, ⟨⟨5, 4⟩, ⟨5, 10⟩⟩⟩, some "Page"⟩

def classMatchSym : Sym := ⟨"render", SymbolKind.Class, ⟨uriA, ⟨⟨9, 0⟩, ⟨9, 6⟩⟩⟩, none⟩

/-- `envHier` with a workspace symbol index answering `render` with a
top-level function, a method on the `Context` subclass `Page`, and a
class that merely shares the name. -/
def envPy : Env := { envHier with
  workspaceSymbols := fun n =>
    if n = "render" then some [funcSym, methodSym, classMatchSym] else none }

/-- A workspace symbol index whose only exact-name match is a class. -/
def envOnlyClass : Env := { envHier with
  workspaceSymbols := fun n => if n = "render" then some [classMatchSym] else none }

/-- `envPy` plus two local files `greet.dryck` and `_greet.dryck` in the
document's directory. -/
def envFile : Env := { envPy with
  existsSync := fun p => p == "/doc/greet.dryck" || p == "/doc/_greet.dryck" }

/-- A workspace symbol index holding a function literally named `foo.bar`. -/
def envDotted : Env := { envPy with
  workspaceSymbols := fun n =>
    if n = "foo.bar"
    then some [⟨"foo.bar", SymbolKind.Function, ⟨uriA, ⟨⟨1, 0⟩, ⟨1, 3⟩⟩⟩, none⟩]
    else none }

def docNoTok : Document := ⟨Uri.file "/doc/page.dryck", ["no token here"]⟩

def docGreet : Document := ⟨Uri.file "/doc/page.dryck", ["◊greet"]⟩

def docRender : Document := ⟨Uri.file "/doc/page.dryck", ["◊render"]⟩

def docDotted : Document := ⟨Uri.file "/doc/page.dryck", ["◊(foo.bar)"]⟩

def docDots : Document := ⟨Uri.file "/doc/page.dryck", ["◊(foo..bar)"]⟩

/-! ## Helper lemmas: character classes and matchers -/

lemma isIdentStart_ne_lozenge {c : Char} (h : isIdentStart c = true) : c ≠ '◊' := by
  rintro rfl
  simp [isIdentStart, isAsciiLetter] at h

lemma isIdentStart_ne_lparen {c : Char} (h : isIdentStart c = true) : c ≠ '(' := by
  rintro rfl
  simp [isIdentStart, isAsciiLetter] at h

lemma isBareNameChar_ne_lozenge {c : Char} (h : isBareNameChar c = true) : c ≠ '◊' := by
  rintro rfl
  simp [isBareNameChar, isIdentStart, isAsciiLetter, isDigitB] at h

lemma isParenNameStart_ne_lozenge {c : Char} (h : isParenNameStart c = true) : c ≠ '◊' := by
  rintro rfl
  simp [isParenNameStart, isIdentStart, isAsciiLetter] at h

lemma isParenNameChar_ne_lozenge {c : Char} (h : isParenNameChar c = true) : c ≠ '◊' := by
  rintro rfl
  simp [isParenNameChar, isIdentStart, isAsciiLetter, isDigitB] at h

lemma matchParen_head {cs : List Char} {n : String} {len : Nat}
    (h : matchParen cs = some (n, len)) : ∃ rest, cs = '◊' :: rest := by
  match cs with
  | [] => simp [matchParen] at h
  | [c0] => simp [matchParen] at h
  | [c0, c1] => simp [matchParen] at h
  | c0 :: c1 :: c2 :: rest =>
    by_cases h0 : c0 = '◊'
    · exact ⟨c1 :: c2 :: rest, by rw [h0]⟩
    · simp [matchParen, h0] at h

lemma matchColon_head {cs : List Char} {n : String} {len : Nat}
    (h : matchColon cs = some (n, len)) : ∃ rest, cs = '◊' :: rest := by
  match cs with
  | [] => simp [matchColon] at h
  | [c0] => simp [matchColon] at h
  | c0 :: c1 :: rest =>
    by_cases h0 : c0 = '◊'
    · exact ⟨c1 :: rest, by rw [h0]⟩
    · simp [matchColon, h0] at h

lemma matchBare_head {cs : List Char} {n : String} {len : Nat}
    (h : matchBare cs = some (n, len)) : ∃ rest, cs = '◊' :: rest := by
  match cs with
  | [] => simp [matchBare] at h
  | [c0] => simp [matchBare] at h
  | c0 :: c1 :: rest =>
    by_cases h0 : c0 = '◊'
    · exact ⟨c1 :: rest, by rw [h0]⟩
    · simp [matchBare, h0] at h

/-- Unpack a successful bare-form match into its components. -/
lemma matchBare_elim {c0 c1 : Char} {rest : List Char} {n : String} {len : Nat}
    (h : matchBare (c0 :: c1 :: rest) = some (n, len)) :
    c0 = '◊' ∧ isIdentStart c1 = true ∧
    n = String.mk (c1 :: rest.takeWhile isBareNameChar) ∧
    len = (rest.takeWhile isBareNameChar).length + 2 := by
  by_cases h0 : c0 = '◊'
  · by_cases h1 : isIdentStart c1
    · refine ⟨h0, h1, ?_, ?_⟩ <;> · simp [matchBare, h0, h1] at h; tauto
    · simp [matchBare, h0, h1] at h
  · simp [matchBare, h0] at h

/-- Unpack a successful colon-form match into its components. -/
lemma matchColon_elim {c0 c1 : Char} {rest : List Char} {n : String} {len : Nat}
    (h : matchColon (c0 :: c1 :: rest) = some (n, len)) :
    c0 = '◊' ∧ isIdentStart c1 = true ∧
    n = String.mk (c1 :: rest.takeWhile isBareNameChar) ∧
    len = (rest.takeWhile isBareNameChar).length + 2 := by
  by_cases h0 : c0 = '◊'
  · by_cases h1 : isIdentStart c1
    · refine ⟨h0, h1, ?_, ?_⟩ <;>
      · simp only [matchColon, h0, if_true, h1] at h
        rcases hd : (rest.dropWhile isBareNameChar).dropWhile isJsSpace with _ | ⟨d, tl⟩ <;>
          rw [hd] at h
        · simp at h
        · by_cases hc : d = ':'
          · simp [hc] at h; tauto
          · simp [hc] at h
    · simp [matchColon, h0, h1] at h
  · simp [matchColon, h0] at h

/-- A colon-form match is also a bare-form match with the same capture and
the same `m[0]` length (the lookahead is outside `m[0]`). -/
lemma matchColon_imp_matchBare {cs : List Char} {n : String} {len : Nat}
    (h : matchColon cs = some (n, len)) : matchBare cs = some (n, len) := by
  match cs with
  | [] => simp [matchColon] at h
  | [c0] => simp [matchColon] at h
  | c0 :: c1 :: rest =>
    obtain ⟨h0, h1, hn, hl⟩ := matchColon_elim h
    subst h0 hn hl
    simp [matchBare, h1]

/-- The colon form never matches where the parenthesized form would need
`(` (the identifier start class excludes `(`). -/
lemma matchParen_none_of_identStart {c0 c1 : Char} {rest : List Char}
    (h1 : isIdentStart c1 = true) : matchParen (c0 :: c1 :: rest) = none := by
  match rest with
  | [] => simp [matchParen]
  | c2 :: rest' =>
    by_cases h0 : c0 = '◊'
    · have : c1 ≠ '(' := isIdentStart_ne_lparen h1
      simp [matchParen, h0, this]
    · simp [matchParen, h0]

/-! ## Helper lemmas: the `exec` scan -/

/-- The recursion bound of the scan is irrelevant once it is at least the
text length. -/
lemma scanAuxF_congr {p : Matcher} : ∀ {f1 f2 : Nat} {cs : List Char} {i : Nat},
    cs.length ≤ f1 → cs.length ≤ f2 → scanAuxF p f1 cs i = scanAuxF p f2 cs i := by
  intro f1
  induction f1 with
  | zero =>
    intro f2 cs i h1 h2
    have hnil : cs = [] := List.eq_nil_of_length_eq_zero (Nat.le_zero.mp h1)
    subst hnil
    cases f2 <;> rfl
  | succ f1 ih =>
    intro f2 cs i h1 h2
    cases cs with
    | nil => cases f2 <;> rfl
    | cons c rest =>
      cases f2 with
      | zero => simp at h2
      | succ f2 =>
        simp only [List.length_cons, Nat.add_le_add_iff_right] at h1 h2
        simp only [scanAuxF]
        rcases hp2 : p (c :: rest) with _ | ⟨nm, len⟩
        · exact ih h1 h2
        · have hd : (rest.drop (len - 1)).length ≤ rest.length := by
            simp [List.length_drop]
          exact congrArg (List.cons _) (ih (le_trans hd h1) (le_trans hd h2))

lemma scanAux_nil (p : Matcher) (i : Nat) : scanAux p [] i = [] := rfl

lemma scanAux_cons_none {p : Matcher} {c : Char} {rest : List Char} (i : Nat)
    (h : p (c :: rest) = none) : scanAux p (c :: rest) i = scanAux p rest (i + 1) := by
  show scanAuxF p (rest.length + 1) (c :: rest) i = scanAuxF p rest.length rest (i + 1)
  simp only [scanAuxF, h]

lemma scanAux_cons_some {p : Matcher} {c : Char} {rest : List Char} {n : String}
    {len : Nat} (i : Nat) (h : p (c :: rest) = some (n, len)) :
    scanAux p (c :: rest) i = ⟨i, i + len, n⟩ :: scanAux p (rest.drop (len - 1)) (i + len) := by
  show scanAuxF p (rest.length + 1) (c :: rest) i =
    ⟨i, i + len, n⟩ :: scanAuxF p (rest.drop (len - 1)).length (rest.drop (len - 1)) (i + len)
  simp only [scanAuxF, h]
  refine congrArg (List.cons _) (scanAuxF_congr ?_ ?_)
  · simp [List.length_drop]
  · exact Nat.le_refl _

/-- Unpack a successful parenthesized-form match into its components. -/
lemma matchParen_elim {c0 c1 c2 : Char} {rest : List Char} {n : String} {len : Nat}
    (h : matchParen (c0 :: c1 :: c2 :: rest) = some (n, len)) :
    c0 = '◊' ∧ c1 = '(' ∧ isParenNameStart c2 = true ∧
    n = String.mk (c2 :: rest.takeWhile isParenNameChar) ∧
    len = (rest.takeWhile isParenNameChar).length + 4 ∧
    ∃ tl, rest.dropWhile isParenNameChar = ')' :: tl := by
  by_cases h0 : c0 = '◊'
  · by_cases h1 : c1 = '('
    · by_cases h2 : isParenNameStart c2
      · refine ⟨h0, h1, h2, ?_⟩
        simp only [matchParen, h0, h1, h2, if_true] at h
        rcases hd : rest.dropWhile isParenNameChar with _ | ⟨d, tl⟩ <;> rw [hd] at h
        · simp at h
        · by_cases hc : d = ')'
          · subst hc
            simp at h
            exact ⟨h.1.symm, h.2.symm, tl, rfl⟩
          · simp [hc] at h
      · simp [matchParen, h0, h1, h2] at h
    · simp [matchParen, h0, h1] at h
  · simp [matchParen, h0] at h

lemma matchParen_len_pos {cs : List Char} {n : String} {len : Nat}
    (h : matchParen cs = some (n, len)) : 1 ≤ len := by
  match cs with
  | [] => simp [matchParen] at h
  | [c0] => simp [matchParen] at h
  | [c0, c1] => simp [matchParen] at h
  | c0 :: c1 :: c2 :: rest =>
    obtain ⟨-, -, -, -, hl, -⟩ := matchParen_elim h
    omega

lemma matchColon_len_pos {cs : List Char} {n : String} {len : Nat}
    (h : matchColon cs = some (n, len)) : 1 ≤ len := by
  match cs with
  | [] => simp [matchColon] at h
  | [c0] => simp [matchColon] at h
  | c0 :: c1 :: rest =>
    obtain ⟨-, -, -, hl⟩ := matchColon_elim h
    omega

lemma matchBare_len_pos {cs : List Char} {n : String} {len : Nat}
    (h : matchBare cs = some (n, len)) : 1 ≤ len := by
  match cs with
  | [] => simp [matchBare] at h
  | [c0] => simp [matchBare] at h
  | c0 :: c1 :: rest =>
    obtain ⟨-, -, -, hl⟩ := matchBare_elim h
    omega

/-- Every match reported by the scan lies at or after the scan position,
and re-running the matcher at the match's own start reproduces its name
and its span length (`stop = start + m[0].length`). -/
lemma scanAux_mem_spec {p : Matcher}
    (hp1 : ∀ cs n len, p cs = some (n, len) → 1 ≤ len)
    {cs : List Char} {i : Nat} {m : TokMatch} (hm : m ∈ scanAux p cs i) :
    i ≤ m.start ∧ ∃ len, p (cs.drop (m.start - i)) = some (m.name, len) ∧
      m.stop = m.start + len := by
  suffices H : ∀ (N : Nat) (cs : List Char) (i : Nat) (m : TokMatch),
      cs.length ≤ N → m ∈ scanAux p cs i →
      i ≤ m.start ∧ ∃ len, p (cs.drop (m.start - i)) = some (m.name, len) ∧
        m.stop = m.start + len from
    H cs.length cs i m (Nat.le_refl _) hm
  intro N
  induction N with
  | zero =>
    intro cs i m hlen hmm
    have hnil : cs = [] := List.eq_nil_of_length_eq_zero (Nat.le_zero.mp hlen)
    subst hnil
    simp [scanAux_nil] at hmm
  | succ N ih =>
    intro cs i m hlen hmm
    cases cs with
    | nil => simp [scanAux_nil] at hmm
    | cons c rest =>
      simp only [List.length_cons, Nat.add_le_add_iff_right] at hlen
      rcases hp2 : p (c :: rest) with _ | ⟨nm, len⟩
      · rw [scanAux_cons_none i hp2] at hmm
        obtain ⟨hge, len', hp', hstop⟩ := ih rest (i + 1) m hlen hmm
        refine ⟨by omega, len', ?_, hstop⟩
        have hdrop : rest.drop (m.start - (i + 1)) = (c :: rest).drop (m.start - i) := by
          have heq : m.start - i = (m.start - (i + 1)) + 1 := by omega
          rw [heq, List.drop_succ_cons]
        rw [← hdrop]
        exact hp'
      · rw [scanAux_cons_some i hp2] at hmm
        rcases List.mem_cons.mp hmm with rfl | hmem
        · exact ⟨Nat.le_refl _, len, by simpa using hp2, rfl⟩
        · have hdl : (rest.drop (len - 1)).length ≤ N := by
            simp only [List.length_drop]
            omega
          obtain ⟨hge, len', hp', hstop⟩ := ih _ (i + len) m hdl hmem
          have hlen1 : 1 ≤ len := hp1 _ _ _ hp2
          refine ⟨by omega, len', ?_, hstop⟩
          have hdrop : (List.drop (len - 1) rest).drop (m.start - (i + len)) =
              (c :: rest).drop (m.start - i) := by
            rw [List.drop_drop]
            have heq : m.start - i = ((len - 1) + (m.start - (i + len))) + 1 := by omega
            rw [heq, List.drop_succ_cons]
          rw [← hdrop]
          exact hp'

/-- Scanning past a marker-free prefix only shifts the scan position: every
match must start at a `◊`. -/
lemma scanAux_append_nomark {p : Matcher}
    (hp : ∀ cs n len, p cs = some (n, len) → ∃ r, cs = '◊' :: r) :
    ∀ (pre tail : List Char) (i : Nat), '◊' ∉ pre →
      scanAux p (pre ++ tail) i = scanAux p tail (i + pre.length) := by
  intro pre
  induction pre with
  | nil => intro tail i _; simp
  | cons c pre' ih =>
    intro tail i hmem
    have hc : c ≠ '◊' := fun hc => hmem (hc ▸ List.mem_cons_self c pre')
    have hnone : p (c :: (pre' ++ tail)) = none := by
      rcases hmatch : p (c :: (pre' ++ tail)) with _ | ⟨n, len⟩
      · rfl
      · obtain ⟨r, hr⟩ := hp _ _ _ hmatch
        exact absurd (List.head_eq_of_cons_eq hr) hc
    rw [List.cons_append, scanAux_cons_none i hnone,
      ih tail (i + 1) (fun h => hmem (List.mem_cons_of_mem c h))]
    congr 1
    simp [List.length_cons]
    omega

lemma drop_takeWhile_length {α : Type} (p : α → Bool) (l : List α) :
    l.drop (l.takeWhile p).length = l.dropWhile p := by
  induction l with
  | nil => rfl
  | cons c tl ih =>
    by_cases hc : p c
    · simp [List.takeWhile_cons, List.dropWhile_cons, hc, ih]
    · simp [List.takeWhile_cons, List.dropWhile_cons, hc]

/-- If the cursor column is at or before the scan's base position and the
scanned suffix does not begin with the marker, no match of that scan
contains the cursor. -/
lemma find?_none_of_tail {p : Matcher}
    (hp : ∀ cs n len, p cs = some (n, len) → ∃ r, cs = '◊' :: r)
    (hp1 : ∀ cs n len, p cs = some (n, len) → 1 ≤ len)
    {after : List Char} {base col : Nat}
    (hcol : col ≤ base) (hhead : after.head? ≠ some '◊') :
    (scanAux p after base).find? (containsCol col) = none := by
  rw [List.find?_eq_none]
  intro m hm hcc
  obtain ⟨hge, len, hpm, _⟩ := scanAux_mem_spec hp1 hm
  simp only [containsCol, Bool.and_eq_true, decide_eq_true_eq] at hcc
  have hstart : m.start = base := by omega
  rw [hstart, Nat.sub_self, List.drop_zero] at hpm
  obtain ⟨r, hr⟩ := hp _ _ _ hpm
  rw [hr] at hhead
  exact hhead rfl

/-- Scanning a line made of a marker-free prefix followed by a
colon/bare-shaped token that this pattern does not match at its marker:
if the character after the token is not a marker either, no match of this
pattern contains any column inside the token's span. -/
lemma firstContaining_none_token {p : Matcher}
    (hp : ∀ cs n len, p cs = some (n, len) → ∃ r, cs = '◊' :: r)
    (hp1 : ∀ cs n len, p cs = some (n, len) → 1 ≤ len)
    {pre : List Char} {c1 : Char} {rest : List Char} {col len : Nat}
    (hpre : '◊' ∉ pre)
    (hnone : p ('◊' :: c1 :: rest) = none)
    (hc1 : isIdentStart c1 = true)
    (hlen : len = (rest.takeWhile isBareNameChar).length + 2)
    (hafter : (rest.dropWhile isBareNameChar).head? ≠ some '◊')
    (hcol : col ≤ pre.length + len) :
    firstContaining p (pre ++ '◊' :: c1 :: rest) col = none := by
  unfold firstContaining lineMatches
  rw [Option.map_eq_none']
  rw [scanAux_append_nomark hp pre _ 0 hpre, Nat.zero_add,
    scanAux_cons_none pre.length hnone]
  have hsplit : c1 :: rest =
      (c1 :: rest.takeWhile isBareNameChar) ++ rest.dropWhile isBareNameChar := by
    simp [List.takeWhile_append_dropWhile]
  rw [hsplit]
  have hbody : '◊' ∉ c1 :: rest.takeWhile isBareNameChar := by
    intro hmem
    rcases List.mem_cons.mp hmem with heq | hmem'
    · exact isIdentStart_ne_lozenge hc1 heq.symm
    · exact isBareNameChar_ne_lozenge (List.mem_takeWhile_imp hmem') rfl
  rw [scanAux_append_nomark hp _ _ _ hbody]
  have hbase : pre.length + 1 + (c1 :: rest.takeWhile isBareNameChar).length =
      pre.length + len := by
    simp only [List.length_cons]
    omega
  rw [hbase]
  exact find?_none_of_tail hp hp1 hcol hafter

/-- If a pattern matches the token at the end of the marker-free prefix,
its first match is that token, and any column within the token's inclusive
span selects it. -/
lemma firstContaining_some_token {p : Matcher}
    (hp : ∀ cs n len, p cs = some (n, len) → ∃ r, cs = '◊' :: r)
    {pre tail : List Char} {n : String} {col len : Nat}
    (hpre : '◊' ∉ pre)
    (hm : p tail = some (n, len))
    (h1 : pre.length ≤ col) (h2 : col ≤ pre.length + len) :
    firstContaining p (pre ++ tail) col = some n := by
  obtain ⟨r, rfl⟩ := hp _ _ _ hm
  unfold firstContaining lineMatches
  rw [scanAux_append_nomark hp pre _ 0 hpre, Nat.zero_add,
    scanAux_cons_some pre.length hm]
  have hcc : containsCol col ⟨pre.length, pre.length + len, n⟩ = true := by
    simp only [containsCol, Bool.and_eq_true, decide_eq_true_eq]
    exact ⟨h1, h2⟩
  rw [List.find?_cons_of_pos _ hcc]
  rfl

/-- A parenthesized-form token starting right after a marker-free prefix is
extracted at every column of its inclusive span. -/
lemma extract_paren_at {pre tail : List Char} {n : String} {col len : Nat}
    (hpre : '◊' ∉ pre) (hm : matchParen tail = some (n, len))
    (h1 : pre.length ≤ col) (h2 : col ≤ pre.length + len) :
    extractFromLine (pre ++ tail) col = some n := by
  have hfc := firstContaining_some_token (fun _ _ _ h => matchParen_head h) hpre hm h1 h2
  simp [extractFromLine, hfc]

/-- A colon-form token starting right after a marker-free prefix, not
immediately followed by another marker, is extracted at every column of
its inclusive span. -/
lemma extract_colon_at {pre tail : List Char} {n : String} {col len : Nat}
    (hpre : '◊' ∉ pre) (hm : matchColon tail = some (n, len))
    (hafter : (tail.drop len).head? ≠ some '◊')
    (h1 : pre.length ≤ col) (h2 : col ≤ pre.length + len) :
    extractFromLine (pre ++ tail) col = some n := by
  obtain ⟨r, rfl⟩ := matchColon_head hm
  match r, hm with
  | c1 :: rest, hm =>
    obtain ⟨-, hid, hn, hlen⟩ := matchColon_elim hm
    have hafter' : (rest.dropWhile isBareNameChar).head? ≠ some '◊' := by
      have hdrop : ('◊' :: c1 :: rest).drop len = rest.dropWhile isBareNameChar := by
        rw [hlen]
        show (c1 :: rest).drop ((rest.takeWhile isBareNameChar).length + 1) = _
        rw [List.drop_succ_cons, drop_takeWhile_length]
      rw [hdrop] at hafter
      exact hafter
    have hparen : firstContaining matchParen (pre ++ '◊' :: c1 :: rest) col = none :=
      firstContaining_none_token (fun _ _ _ h => matchParen_head h)
        (fun _ _ _ h => matchParen_len_pos h) hpre
        (matchParen_none_of_identStart hid) hid hlen hafter' h2
    have hcolon := firstContaining_some_token (fun _ _ _ h => matchColon_head h)
      hpre hm h1 h2
    simp [extractFromLine, hparen, hcolon]

/-- A bare-form token starting right after a marker-free prefix, not
immediately followed by another marker, is extracted at every column of
its inclusive span. -/
lemma extract_bare_at {pre tail : List Char} {n : String} {col len : Nat}
    (hpre : '◊' ∉ pre) (hm : matchBare tail = some (n, len))
    (hafter : (tail.drop len).head? ≠ some '◊')
    (h1 : pre.length ≤ col) (h2 : col ≤ pre.length + len) :
    extractFromLine (pre ++ tail) col = some n := by
  rcases hc : matchColon tail with _ | ⟨n', len'⟩
  · obtain ⟨r, rfl⟩ := matchBare_head hm
    match r, hm, hc with
    | c1 :: rest, hm, hc =>
      obtain ⟨-, hid, hn, hlen⟩ := matchBare_elim hm
      have hafter' : (rest.dropWhile isBareNameChar).head? ≠ some '◊' := by
        have hdrop : ('◊' :: c1 :: rest).drop len = rest.dropWhile isBareNameChar := by
          rw [hlen]
          show (c1 :: rest).drop ((rest.takeWhile isBareNameChar).length + 1) = _
          rw [List.drop_succ_cons, drop_takeWhile_length]
        rw [hdrop] at hafter
        exact hafter
      have hparen : firstContaining matchParen (pre ++ '◊' :: c1 :: rest) col = none :=
        firstContaining_none_token (fun _ _ _ h => matchParen_head h)
          (fun _ _ _ h => matchParen_len_pos h) hpre
          (matchParen_none_of_identStart hid) hid hlen hafter' h2
      have hcolon : firstContaining matchColon (pre ++ '◊' :: c1 :: rest) col = none :=
        firstContaining_none_token (fun _ _ _ h => matchColon_head h)
          (fun _ _ _ h => matchColon_len_pos h) hpre hc hid hlen hafter' h2
      have hbare := firstContaining_some_token (fun _ _ _ h => matchBare_head h)
        hpre hm h1 h2
      simp [extractFromLine, hparen, hcolon, hbare]
  · have hb := matchColon_imp_matchBare hc
    rw [hm] at hb
    obtain ⟨rfl, rfl⟩ : n' = n ∧ len' = len := by
      have h := Option.some.inj hb
      exact ⟨(congrArg Prod.fst h).symm, (congrArg Prod.snd h).symm⟩
    exact extract_colon_at hpre hc hafter h1 h2

/-! ## Helper lemmas: the breadth-first search -/

lemma visitLoop_cons_mem {sup : Item} {rest : List Item} {v : List String}
    {q : List Item} (h : itemKey sup ∈ v) :
    visitLoop (sup :: rest) v q = visitLoop rest v q := by
  simp [visitLoop, h]

lemma visitLoop_cons_base {sup : Item} {rest : List Item} {v : List String}
    {q : List Item} (h : itemKey sup ∉ v) (hb : isBaseItem sup = true) :
    visitLoop (sup :: rest) v q = .found := by
  simp [visitLoop, h, hb]

lemma visitLoop_cons_push {sup : Item} {rest : List Item} {v : List String}
    {q : List Item} (h : itemKey sup ∉ v) (hb : isBaseItem sup = false) :
    visitLoop (sup :: rest) v q = visitLoop rest (itemKey sup :: v) (q ++ [sup]) := by
  simp [visitLoop, h, hb]

/-- The supertype loop only returns `found` when one of the supertypes in
the list satisfies the base criteria. -/
lemma visitLoop_found {l : List Item} :
    ∀ {visited queue}, visitLoop l visited queue = .found →
      ∃ s ∈ l, isBaseItem s = true := by
  induction l with
  | nil => intro v q h; simp [visitLoop] at h
  | cons sup rest ih =>
    intro v q h
    by_cases hmem : itemKey sup ∈ v
    · rw [visitLoop_cons_mem hmem] at h
      obtain ⟨s, hs, hb⟩ := ih h
      exact ⟨s, List.mem_cons_of_mem _ hs, hb⟩
    · rcases hbase : isBaseItem sup with _ | _
      · rw [visitLoop_cons_push hmem hbase] at h
        obtain ⟨s, hs, hb⟩ := ih h
        exact ⟨s, List.mem_cons_of_mem _ hs, hb⟩
      · exact ⟨sup, List.mem_cons_self _ _, hbase⟩

/-- One pass of the supertype loop does not increase the termination
measure `queue length + number of universe keys not yet visited`. -/
lemma visitLoop_measure {U : List String} {l : List Item}
    (hl : ∀ s ∈ l, itemKey s ∈ U) :
    ∀ {visited queue visited' queue'},
      visitLoop l visited queue = .cont visited' queue' →
      queue'.length + (U.toFinset \ visited'.toFinset).card ≤
        queue.length + (U.toFinset \ visited.toFinset).card := by
  induction l with
  | nil =>
    intro v q v' q' h
    simp only [visitLoop] at h
    injection h with h1 h2
    subst h1
    subst h2
    exact Nat.le_refl _
  | cons sup rest ih =>
    intro v q v' q' h
    have hsup : itemKey sup ∈ U := hl sup (List.mem_cons_self _ _)
    have hrest : ∀ s ∈ rest, itemKey s ∈ U := fun s hs => hl s (List.mem_cons_of_mem _ hs)
    by_cases hmem : itemKey sup ∈ v
    · rw [visitLoop_cons_mem hmem] at h
      exact ih hrest h
    · cases hbase : isBaseItem sup with
      | true =>
        rw [visitLoop_cons_base hmem hbase] at h
        cases h
      | false =>
      rw [visitLoop_cons_push hmem hbase] at h
      have step := ih hrest h
      have hkey : itemKey sup ∈ U.toFinset \ v.toFinset := by
        rw [Finset.mem_sdiff, List.mem_toFinset, List.mem_toFinset]
        exact ⟨hsup, hmem⟩
      have hcard : (U.toFinset \ (itemKey sup :: v).toFinset).card =
          (U.toFinset \ v.toFinset).card - 1 := by
        rw [List.toFinset_cons, Finset.sdiff_insert, Finset.card_erase_of_mem hkey]
      have hpos : 1 ≤ (U.toFinset \ v.toFinset).card :=
        Finset.card_pos.mpr ⟨itemKey sup, hkey⟩
      have hqlen : (q ++ [sup]).length = q.length + 1 := by simp
      rw [hqlen, hcard] at step
      omega


lemma bfsAux_nil {env : Env} (fuel : Nat) (v : List String) :
    bfsAux env fuel v [] = some false := by
  cases fuel <;> rfl

lemma bfsAux_cons_none {env : Env} {it : Item} {fuel : Nat} {v : List String}
    {q : List Item} (hs : env.supertypes it = none) :
    bfsAux env (fuel + 1) v (it :: q) = bfsAux env fuel v q := by
  simp [bfsAux, hs]

lemma bfsAux_cons_found {env : Env} {it : Item} {l : List Item} {fuel : Nat}
    {v : List String} {q : List Item} (hs : env.supertypes it = some l)
    (hv : visitLoop l v q = .found) :
    bfsAux env (fuel + 1) v (it :: q) = some true := by
  simp [bfsAux, hs, hv]

lemma bfsAux_cons_cont {env : Env} {it : Item} {l : List Item} {fuel : Nat}
    {v v' : List String} {q q' : List Item} (hs : env.supertypes it = some l)
    (hv : visitLoop l v q = .cont v' q') :
    bfsAux env (fuel + 1) v (it :: q) = bfsAux env fuel v' q' := by
  simp [bfsAux, hs, hv]

/-- Termination of the breadth-first search: when every supertype edge
lands in a finite key universe `U`, fuel `queue length + number of
unvisited universe keys` suffices for the loop to finish. -/
lemma bfs_total {env : Env} {U : List String}
    (hU : ∀ i l, env.supertypes i = some l → ∀ s ∈ l, itemKey s ∈ U) :
    ∀ (fuel : Nat) (visited : List String) (queue : List Item),
      queue.length + (U.toFinset \ visited.toFinset).card ≤ fuel →
      ∃ b, bfsAux env fuel visited queue = some b := by
  intro fuel
  induction fuel with
  | zero =>
    intro v q hq
    cases q with
    | nil => exact ⟨false, bfsAux_nil 0 v⟩
    | cons it q' =>
      simp only [List.length_cons] at hq
      omega
  | succ fuel ih =>
    intro v q hq
    cases q with
    | nil => exact ⟨false, bfsAux_nil _ v⟩
    | cons it q' =>
      simp only [List.length_cons] at hq
      rcases hs : env.supertypes it with _ | l
      · obtain ⟨b, hb⟩ := ih v q' (by omega)
        exact ⟨b, by rw [bfsAux_cons_none hs]; exact hb⟩
      · rcases hv : visitLoop l v q' with _ | ⟨v', q2⟩
        · exact ⟨true, bfsAux_cons_found hs hv⟩
        · have hm := visitLoop_measure (hU it l hs) hv
          obtain ⟨b, hb⟩ := ih v' q2 (by omega)
          exact ⟨b, by rw [bfsAux_cons_cont hs hv]; exact hb⟩

/-- Soundness of a positive answer: the breadth-first search only returns
`true` because some node reached through a supertypes-of edge satisfies
the base criteria. -/
lemma bfs_sound {env : Env} : ∀ {fuel : Nat} {visited : List String}
    {queue : List Item}, bfsAux env fuel visited queue = some true →
    ∃ i l s, env.supertypes i = some l ∧ s ∈ l ∧ isBaseItem s = true := by
  intro fuel
  induction fuel with
  | zero =>
    intro v q h
    cases q with
    | nil => rw [bfsAux_nil] at h; cases h
    | cons it q' => cases h
  | succ fuel ih =>
    intro v q h
    cases q with
    | nil => rw [bfsAux_nil] at h; cases h
    | cons it q' =>
      rcases hs : env.supertypes it with _ | l
      · rw [bfsAux_cons_none hs] at h
        exact ih h
      · rcases hv : visitLoop l v q' with _ | ⟨v', q2⟩
        · obtain ⟨s, hsl, hb⟩ := visitLoop_found hv
          exact ⟨it, l, s, hs, hsl, hb⟩
        · rw [bfsAux_cons_cont hs hv] at h
          exact ih h

lemma visitLoopL_cons_mem {sup : Item} {rest : List Item} {v : List String}
    {q log : List Item} (h : itemKey sup ∈ v) :
    visitLoopL (sup :: rest) v q log = visitLoopL rest v q log := by
  simp [visitLoopL, h]

lemma visitLoopL_cons_base {sup : Item} {rest : List Item} {v : List String}
    {q log : List Item} (h : itemKey sup ∉ v) (hb : isBaseItem sup = true) :
    visitLoopL (sup :: rest) v q log = .found := by
  simp [visitLoopL, h, hb]

lemma visitLoopL_cons_push {sup : Item} {rest : List Item} {v : List String}
    {q log : List Item} (h : itemKey sup ∉ v) (hb : isBaseItem sup = false) :
    visitLoopL (sup :: rest) v q log =
      visitLoopL rest (itemKey sup :: v) (q ++ [sup]) (log ++ [sup]) := by
  simp [visitLoopL, h, hb]

/-- Forgetting the log of the instrumented supertype loop gives the plain
supertype loop. -/
lemma visitLoopL_proj : ∀ (l : List Item) (v : List String) (q log : List Item),
    (match visitLoopL l v q log with
      | .found => VisitRes.found
      | .cont v' q' _ => VisitRes.cont v' q') = visitLoop l v q := by
  intro l
  induction l with
  | nil => intro v q log; rfl
  | cons sup rest ih =>
    intro v q log
    by_cases hmem : itemKey sup ∈ v
    · rw [visitLoopL_cons_mem hmem, visitLoop_cons_mem hmem]
      exact ih v q log
    · cases hbase : isBaseItem sup with
      | true => rw [visitLoopL_cons_base hmem hbase, visitLoop_cons_base hmem hbase]
      | false =>
        rw [visitLoopL_cons_push hmem hbase, visitLoop_cons_push hmem hbase]
        exact ih _ _ _

lemma bfsAuxL_nil {env : Env} (fuel : Nat) (v : List String) (log : List Item) :
    bfsAuxL env fuel v [] log = (some false, log) := by
  cases fuel <;> rfl

/-- The instrumented breadth-first search computes the same answer as the
plain one. -/
lemma bfsAuxL_fst {env : Env} : ∀ (fuel : Nat) (v : List String)
    (q log : List Item), (bfsAuxL env fuel v q log).1 = bfsAux env fuel v q := by
  intro fuel
  induction fuel with
  | zero =>
    intro v q log
    cases q with
    | nil => rw [bfsAuxL_nil, bfsAux_nil]
    | cons it q' => rfl
  | succ fuel ih =>
    intro v q log
    cases q with
    | nil => rw [bfsAuxL_nil, bfsAux_nil]
    | cons it q' =>
      rcases hs : env.supertypes it with _ | l
      · rw [bfsAux_cons_none hs]
        have hstep : bfsAuxL env (fuel + 1) v (it :: q') log = bfsAuxL env fuel v q' log := by
          simp [bfsAuxL, hs]
        rw [hstep]
        exact ih v q' log
      · have hproj := visitLoopL_proj l v q' log
        rcases hL : visitLoopL l v q' log with _ | ⟨v', q2, log'⟩
        · rw [hL] at hproj
          rw [bfsAux_cons_found hs hproj.symm]
          simp [bfsAuxL, hs, hL]
        · rw [hL] at hproj
          rw [bfsAux_cons_cont hs hproj.symm]
          have hstep : bfsAuxL env (fuel + 1) v (it :: q') log =
              bfsAuxL env fuel v' q2 log' := by
            simp [bfsAuxL, hs, hL]
          rw [hstep]
          exact ih v' q2 log'

/-! ## Helper lemmas: the foreign symbol resolver -/

/-- When no inner ancestry check runs out of fuel, the symbol loop returns
exactly the kept matches, in order, mapped to locations. -/
lemma fpdLoop_keep {env : Env} {fuel : Nat} {name : String} :
    ∀ {syms : List Sym}, (∀ s ∈ syms, keepSym env fuel name s ≠ none) →
      fpdLoop env fuel name syms =
        some ((syms.filter (fun s => keepSym env fuel name s == some true)).map
          mkLocation) := by
  intro syms
  induction syms with
  | nil => intro _; rfl
  | cons s rest ih =>
    intro h
    have hs := h s (List.mem_cons_self _ _)
    have hrest := ih (fun x hx => h x (List.mem_cons_of_mem _ hx))
    by_cases hn : s.name = name
    · cases hkind : s.kind with
      | Function =>
        have hk : keepSym env fuel name s = some true := by
          simp [keepSym, hn, hkind]
        simp [fpdLoop, hn, hkind, List.filter_cons, hk, hrest]
      | Method =>
        rcases hcn : classNameOf env s with _ | c
        · have hk : keepSym env fuel name s = some false := by
            simp [keepSym, hn, hkind, hcn]
          simp [fpdLoop, hn, hkind, hcn, List.filter_cons, hk, hrest]
        · by_cases hc : c = ""
          · subst hc
            have hk : keepSym env fuel name s = some false := by
              simp [keepSym, hn, hkind, hcn]
            simp [fpdLoop, hn, hkind, hcn, List.filter_cons, hk, hrest]
          · rcases hics : isContextSubclass env fuel s.location.uri c with _ | b
            · exfalso
              apply hs
              simp [keepSym, hn, hkind, hcn, hc, hics]
            · have hk : keepSym env fuel name s = some b := by
                simp [keepSym, hn, hkind, hcn, hc, hics]
              cases b with
              | true => simp [fpdLoop, hn, hkind, hcn, hc, hics, List.filter_cons, hk, hrest]
              | false => simp [fpdLoop, hn, hkind, hcn, hc, hics, List.filter_cons, hk, hrest]
      | Class =>
        have hk : keepSym env fuel name s = some false := by
          simp [keepSym, hn, hkind]
        simp [fpdLoop, hn, hkind, List.filter_cons, hk, hrest]
      | Variable =>
        have hk : keepSym env fuel name s = some false := by
          simp [keepSym, hn, hkind]
        simp [fpdLoop, hn, hkind, List.filter_cons, hk, hrest]
      | Other =>
        have hk : keepSym env fuel name s = some false := by
          simp [keepSym, hn, hkind]
        simp [fpdLoop, hn, hkind, List.filter_cons, hk, hrest]
    · have hk : keepSym env fuel name s = some false := by
        simp [keepSym, hn]
      simp [fpdLoop, hn, List.filter_cons, hk, hrest]

/-- Symbols whose kind is neither `Function` nor `Method` contribute
nothing: filtering them away does not change the loop's result. -/
lemma fpdLoop_kindFilter {env : Env} {fuel : Nat} {name : String} :
    ∀ (syms : List Sym), fpdLoop env fuel name syms =
      fpdLoop env fuel name (syms.filter (fun s =>
        s.kind == SymbolKind.Function || s.kind == SymbolKind.Method)) := by
  intro syms
  induction syms with
  | nil => rfl
  | cons s rest ih =>
    cases hkind : s.kind with
    | Function =>
      by_cases hn : s.name = name <;>
        simp [fpdLoop, hn, hkind, List.filter_cons, ← ih]
    | Method =>
      by_cases hn : s.name = name
      · rcases hcn : classNameOf env s with _ | c
        · simp [fpdLoop, hn, hkind, hcn, List.filter_cons, ← ih]
        · by_cases hc : c = ""
          · subst hc
            simp [fpdLoop, hn, hkind, hcn, List.filter_cons, ← ih]
          · rcases hics : isContextSubclass env fuel s.location.uri c with _ | b
            · simp [fpdLoop, hn, hkind, hcn, hc, hics, List.filter_cons, ← ih]
            · cases b <;> simp [fpdLoop, hn, hkind, hcn, hc, hics, List.filter_cons, ← ih]
      · simp [fpdLoop, hn, hkind, List.filter_cons, ← ih]
    | Class => simp [fpdLoop, hkind, List.filter_cons, ← ih]
    | Variable => simp [fpdLoop, hkind, List.filter_cons, ← ih]
    | Other => simp [fpdLoop, hkind, List.filter_cons, ← ih]

/-- A block of characters all satisfying `p`, followed by one that does
not, splits `takeWhile`/`dropWhile` exactly at the block boundary. -/
lemma takeWhile_append_block {α : Type} {p : α → Bool} :
    ∀ (xs : List α) (b : α) (t : List α), (∀ x ∈ xs, p x = true) → p b = false →
      (xs ++ b :: t).takeWhile p = xs ∧ (xs ++ b :: t).dropWhile p = b :: t := by
  intro xs
  induction xs with
  | nil =>
    intro b t _ hb
    simp [List.takeWhile_cons, List.dropWhile_cons, hb]
  | cons x xs ih =>
    intro b t hall hb
    have hx : p x = true := hall x (List.mem_cons_self _ _)
    obtain ⟨h1, h2⟩ := ih b t (fun y hy => hall y (List.mem_cons_of_mem _ hy)) hb
    simp [List.takeWhile_cons, List.dropWhile_cons, hx, h1, h2]

/-- A pattern has no cursor-containing match exactly when its first
containing match is `none`. -/
lemma firstContaining_eq_none {p : Matcher} {line : List Char} {col : Nat} :
    firstContaining p line col = none ↔
      ∀ m ∈ lineMatches p line, containsCol col m = false := by
  unfold firstContaining
  rw [Option.map_eq_none', List.find?_eq_none]
  constructor
  · intro h m hm
    exact Bool.not_eq_true _ ▸ h m hm
  · intro h m hm
    rw [h m hm]
    exact Bool.false_ne_true

/-! ## Claim theorems -/

/-- Claim C1: `provideDefinition` proceeds in a fixed order — no token
means an empty result; a file hit returns exactly one location at line 0,
column 0 of that file; only a dot-free name invokes the foreign symbol
resolver and returns its result; and a dotted name with no matching file
returns empty no matter what the symbol index holds. -/
theorem provideDefinition_order (env : Env) (fuel : Nat) (doc : Document) (pos : Pos) :
    (extractFunctionName doc pos = none →
      provideDefinition env fuel doc pos = some .jsNull)
  ∧ (∀ n u, extractFunctionName doc pos = some n →
      findDryckFile env n (dirname doc.uri.fsPath) = some u →
      provideDefinition env fuel doc pos = some (.one ⟨u, ⟨⟨0, 0⟩, ⟨0, 0⟩⟩⟩))
  ∧ (∀ n, extractFunctionName doc pos = some n →
      findDryckFile env n (dirname doc.uri.fsPath) = none →
      strIncludes n "." = false →
      provideDefinition env fuel doc pos = (findPythonDefinition env fuel n).map .many)
  ∧ (∀ n, extractFunctionName doc pos = some n →
      findDryckFile env n (dirname doc.uri.fsPath) = none →
      strIncludes n "." = true →
      provideDefinition env fuel doc pos = some .jsNull) := by
  refine ⟨?_, ?_, ?_, ?_⟩
  · intro h
    simp [provideDefinition, h]
  · intro n u h1 h2
    simp [provideDefinition, h1, h2]
  · intro n h1 h2 h3
    simp [provideDefinition, h1, h2, h3]
  · intro n h1 h2 h3
    simp [provideDefinition, h1, h2, h3]

/-- Witness for C1: the four branches of the orchestrator on concrete
documents and environments — no token, a local file hit (line 0, column
0), the Python fallback for a dot-free name, and the empty result for a
dotted name even though the index knows a symbol of exactly that name. -/
theorem provideDefinition_order_w :
    provideDefinition envFile 5 docNoTok ⟨0, 2⟩ = some .jsNull
  ∧ provideDefinition envFile 5 docGreet ⟨0, 1⟩ =
      some (.one ⟨Uri.file "/doc/greet.dryck", ⟨⟨0, 0⟩, ⟨0, 0⟩⟩⟩)
  ∧ provideDefinition envPy 5 docRender ⟨0, 1⟩ =
      (findPythonDefinition envPy 5 "render").map .many
  ∧ provideDefinition envDotted 5 docDotted ⟨0, 2⟩ = some .jsNull :=
  ⟨(provideDefinition_order envFile 5 docNoTok ⟨0, 2⟩).1 (by rfl),
   (provideDefinition_order envFile 5 docGreet ⟨0, 1⟩).2.1 "greet"
     (Uri.file "/doc/greet.dryck") (by rfl) (by rfl),
   (provideDefinition_order envPy 5 docRender ⟨0, 1⟩).2.2.1 "render"
     (by rfl) (by rfl) (by rfl),
   (provideDefinition_order envDotted 5 docDotted ⟨0, 2⟩).2.2.2 "foo.bar"
     (by rfl) (by rfl) (by rfl)⟩

/-- Claim C2 (amended): when the type-hierarchy capability is unavailable
(or the class's outline symbol is missing), `isContextSubclass` simply
returns `false` — the source has no definition-chasing fallback strategy. -/
theorem isContextSubclass_noFallback (env : Env) (fuel : Nat) (u : Uri) (c : String) :
    ((∀ a p, env.prepareTypeHierarchy a p = none) →
      isContextSubclass env fuel u c = some false)
  ∧ (env.docSymbols u = none → isContextSubclass env fuel u c = some false) := by
  constructor
  · intro h
    unfold isContextSubclass
    split
    · rfl
    · split
      · rfl
      · split
        · rfl
        · rw [h]
  · intro h
    unfold isContextSubclass
    rw [h]

/-- Counterexample to C2 as stated: the outline symbol for `Page` is
available and its ancestry would be discoverable from its declaration
header, yet with the hierarchy capability absent `isContextSubclass`
answers `false` — it never "still returns true" via a fallback. -/
theorem isContextSubclass_noFallback_cex :
    isContextSubclass envNoHier 5 uriA "Page" = some false := by rfl

/-- Witness for C2 (amended), at a concrete environment whose hierarchy
capability is entirely absent and at a uri with no outline symbols. -/
theorem isContextSubclass_noFallback_w :
    isContextSubclass envNoHier 7 uriA "Widget" = some false
  ∧ isContextSubclass envNoHier 7 uriB "Page" = some false :=
  ⟨(isContextSubclass_noFallback envNoHier 7 uriA "Widget").1 (fun _ _ => rfl),
   (isContextSubclass_noFallback envNoHier 7 uriB "Page").2 (by rfl)⟩

/-- Claim C4: the local file resolver returns the first existing candidate
in the exact order current-plain, current-underscore, parent-plain,
parent-underscore, workspace-plain, workspace-underscore (one result
requested per workspace variant); in particular the current-directory
plain variant wins whenever it exists. -/
theorem findDryckFile_order (env : Env) (name fromDir : String) :
    findDryckFile env name fromDir = (candidates name fromDir).findSome? (evalCand env)
  ∧ (env.existsSync (pathJoin fromDir (name ++ ".dryck")) = true →
      findDryckFile env name fromDir =
        some (Uri.file (pathJoin fromDir (name ++ ".dryck")))) := by
  constructor
  · cases h1 : env.existsSync (pathJoin fromDir (name ++ ".dryck")) <;>
    cases h2 : env.existsSync (pathJoin fromDir ("_" ++ name ++ ".dryck")) <;>
    cases h3 : env.existsSync (pathJoin (pathJoin fromDir "..") (name ++ ".dryck")) <;>
    cases h4 : env.existsSync (pathJoin (pathJoin fromDir "..") ("_" ++ name ++ ".dryck")) <;>
    simp [findDryckFile, candidates, evalCand, List.findSome?, h1, h2, h3, h4]
  · intro h
    simp [findDryckFile, List.findSome?, h]

/-- Witness for C4: with both `greet.dryck` and `_greet.dryck` present in
the current directory, the plain current-directory file is returned. -/
theorem findDryckFile_order_w :
    findDryckFile envFile "greet" "/doc" =
      some (Uri.file (pathJoin "/doc" ("greet" ++ ".dryck"))) :=
  (findDryckFile_order envFile "greet" "/doc").2 (by rfl)

/-- Claim C10: a workspace-symbol match whose kind is neither `Function`
nor `Method` is always discarded — removing all such symbols does not
change the result, and an index answering only with such symbols yields
the empty list. -/
theorem nonFunctionMethod_discarded :
    (∀ (env : Env) (fuel : Nat) (name : String) (syms : List Sym),
      fpdLoop env fuel name syms =
        fpdLoop env fuel name (syms.filter (fun s =>
          s.kind == SymbolKind.Function || s.kind == SymbolKind.Method)))
  ∧ (∀ (env : Env) (fuel : Nat) (name : String) (syms : List Sym),
      env.workspaceSymbols name = some syms →
      (∀ s ∈ syms, s.kind ≠ SymbolKind.Function ∧ s.kind ≠ SymbolKind.Method) →
      findPythonDefinition env fuel name = some []) := by
  constructor
  · intro env fuel name syms
    exact fpdLoop_kindFilter syms
  · intro env fuel name syms hw hk
    unfold findPythonDefinition
    rw [hw]
    cases hsyms : syms with
    | nil => rfl
    | cons s rest =>
      have hfilter : syms.filter (fun s =>
          s.kind == SymbolKind.Function || s.kind == SymbolKind.Method) = [] := by
        rw [List.filter_eq_nil_iff]
        intro x hx
        obtain ⟨hf, hm⟩ := hk x hx
        simp [hf, hm]
      have hloop : fpdLoop env fuel name syms = some [] := by
        rw [fpdLoop_kindFilter syms, hfilter]
        rfl
      rw [hsyms] at hloop
      simp [hloop]

/-- Witness for C10: an index whose only exact-name match for `render` is
a class symbol produces the empty location list. -/
theorem nonFunctionMethod_discarded_w :
    findPythonDefinition envOnlyClass 5 "render" = some [] :=
  nonFunctionMethod_discarded.2 envOnlyClass 5 "render" [classMatchSym] (by rfl)
    (by decide)

/-- Claim C5: the foreign symbol resolver returns, in the index's original
order and without deduplication, exactly the exact-name matches that are
top-level functions, or methods whose enclosing class (container hint when
truthy, else the containing-scope lookup) exists and is confirmed by the
ancestry walker; everything else is discarded. -/
theorem findPythonDefinition_filter (env : Env) (fuel : Nat) (name : String)
    (syms : List Sym) (hw : env.workspaceSymbols name = some syms)
    (hfuel : ∀ s ∈ syms, keepSym env fuel name s ≠ none) :
    findPythonDefinition env fuel name =
      some ((syms.filter (fun s => keepSym env fuel name s == some true)).map
        mkLocation) := by
  unfold findPythonDefinition
  rw [hw]
  rcases syms with _ | ⟨s, rest⟩
  · rfl
  · simp only [List.isEmpty_cons, Bool.false_eq_true, if_false]
    exact fpdLoop_keep hfuel

/-- Witness for C5: an index answering `render` with a function, a method
on a `Context` subclass, and a same-named class yields the function and
the method, in index order; the class is discarded. -/
theorem findPythonDefinition_filter_w :
    findPythonDefinition envPy 5 "render" =
      some [mkLocation funcSym, mkLocation methodSym] := by
  have h := findPythonDefinition_filter envPy 5 "render"
    [funcSym, methodSym, classMatchSym] (by rfl) (by decide)
  rw [h]
  rfl

/-- Claim C9: the root hierarchy nodes are never tested against the base
criteria — if no node reached through a supertypes-of edge satisfies
them, the ancestry check cannot answer `true`, even when the queried
class itself is the well-known base. -/
theorem rootNotTested (env : Env) (fuel : Nat) (u : Uri) (c : String)
    (h : ∀ i l, env.supertypes i = some l → ∀ s ∈ l, isBaseItem s = false) :
    isContextSubclass env fuel u c ≠ some true := by
  intro hcontra
  unfold isContextSubclass at hcontra
  split at hcontra
  · simp at hcontra
  · split at hcontra
    · simp at hcontra
    · split at hcontra
      · simp at hcontra
      · split at hcontra
        · simp at hcontra
        · split at hcontra
          · simp at hcontra
          · obtain ⟨i, l, s, hs, hsl, hb⟩ := bfs_sound hcontra
            simp [h i l hs s hsl] at hb

/-- Witness for C9: querying the well-known base about itself — the root
node is the base and it has no supertypes — the check answers `false`,
never `true`. -/
theorem rootNotTested_w :
    isContextSubclass envSelfBase 5 uriCtx "Context" = some false
  ∧ isContextSubclass envSelfBase 5 uriCtx "Context" ≠ some true :=
  ⟨by rfl,
   rootNotTested envSelfBase 5 uriCtx "Context" (by
     intro i l hl s hs
     have hl' : l = [] := by simpa [envSelfBase] using hl.symm
     subst hl'
     simp at hs)⟩

/-- Claim C6 (amended): over a finite key universe the breadth-first
search always terminates — nodes reached through supertypes-of edges are
deduplicated by their `uri:name` key and enqueued at most once, while the
initial root items are enqueued without a visited check (so a root
reappearing as a supertype can be enqueued a second time); it returns
`true` only because some visited supertype matched the base, and `false`
once the frontier is exhausted. -/
theorem ancestryWalker_terminates :
    (∀ (env : Env) (U : List String) (items : List Item) (fuel : Nat),
      (∀ i l, env.supertypes i = some l → ∀ s ∈ l, itemKey s ∈ U) →
      items.length + U.toFinset.card ≤ fuel →
      ∃ b, bfsAux env fuel [] items = some b)
  ∧ (∀ (env : Env) (fuel : Nat) (visited : List String) (queue : List Item),
      bfsAux env fuel visited queue = some true →
      ∃ i l s, env.supertypes i = some l ∧ s ∈ l ∧ isBaseItem s = true)
  ∧ (∀ (env : Env) (fuel : Nat) (visited : List String),
      bfsAux env fuel visited [] = some false) := by
  refine ⟨?_, ?_, ?_⟩
  · intro env U items fuel hU hfuel
    refine bfs_total hU fuel [] items ?_
    simpa using hfuel
  · intro env fuel v q h
    exact bfs_sound h
  · intro env fuel v
    exact bfsAux_nil fuel v

/-- Counterexample to C6 as stated ("each node ... enqueued at most
once"): with root `[A]` and `A` its own supertype, `A` is enqueued twice —
once as the initial root, once as a freshly visited supertype — because
the roots bypass the visited set; the search still terminates with
`false`. -/
theorem bfs_enqueued_twice_cex :
    (bfsEnqueues envCyc 5 [itemA]).count itemA = 2
  ∧ bfsAux envCyc 5 [] [itemA] = some false := by
  constructor <;> rfl

/-- Witness for C6 (amended): the three-class inheritance cycle
`A → B → C → A` terminates within the computed fuel bound. -/
theorem ancestryWalker_terminates_w :
    ∃ b, bfsAux envCyc3 10 [] [itemA] = some b :=
  ancestryWalker_terminates.1 envCyc3 keys3 [itemA] 10
    (by
      intro i l hl s hs
      simp only [envCyc3] at hl
      split_ifs at hl with h1 h2 h3
      · injection hl with hl
        subst hl
        simp only [List.mem_singleton] at hs
        subst hs
        decide
      · injection hl with hl
        subst hl
        simp only [List.mem_singleton] at hs
        subst hs
        decide
      · injection hl with hl
        subst hl
        simp only [List.mem_singleton] at hs
        subst hs
        decide
      · injection hl with hl
        subst hl
        simp at hs)
    (by decide)

/-- Claim C3: the tokenizer tries parenthesized, colon, bare in that fixed
order; within a pattern every non-overlapping match is checked in order;
a column is contained in a span `[start, stop]` inclusively on both ends;
the first pattern with a containing match determines the name, else the
result is `none`. -/
theorem extract_priority (line : List Char) (col : Nat) :
    (extractFromLine line col = none ↔
      (∀ m ∈ lineMatches matchParen line, containsCol col m = false) ∧
      (∀ m ∈ lineMatches matchColon line, containsCol col m = false) ∧
      (∀ m ∈ lineMatches matchBare line, containsCol col m = false))
  ∧ (∀ n, extractFromLine line col = some n ↔
      (firstContaining matchParen line col = some n ∨
       (firstContaining matchParen line col = none ∧
        firstContaining matchColon line col = some n) ∨
       (firstContaining matchParen line col = none ∧
        firstContaining matchColon line col = none ∧
        firstContaining matchBare line col = some n)))
  ∧ (∀ (c : Nat) (m : TokMatch), containsCol c m = true ↔ m.start ≤ c ∧ c ≤ m.stop)
  ∧ (∀ (doc : Document) (pos : Pos), extractFunctionName doc pos =
      extractFromLine (doc.lines.getD pos.line "").data pos.character) := by
  refine ⟨?_, ?_, ?_, ?_⟩
  · rw [← firstContaining_eq_none, ← firstContaining_eq_none, ← firstContaining_eq_none]
    unfold extractFromLine
    rcases h1 : firstContaining matchParen line col with _ | n1 <;>
      rcases h2 : firstContaining matchColon line col with _ | n2 <;>
        rcases h3 : firstContaining matchBare line col with _ | n3 <;> simp
  · intro n
    unfold extractFromLine
    rcases h1 : firstContaining matchParen line col with _ | n1 <;>
      rcases h2 : firstContaining matchColon line col with _ | n2 <;>
        rcases h3 : firstContaining matchBare line col with _ | n3 <;> simp
  · intro c m
    simp [containsCol]
  · intro doc pos
    rfl

/-- Witness for C3: on `x ◊foo: y` at a column inside `foo`, the
parenthesized pattern has no containing match and the colon pattern's
first containing match supplies the name. -/
theorem extract_priority_w :
    extractFromLine "x ◊foo: y".data 3 = some "foo" :=
  ((extract_priority "x ◊foo: y".data 3).2.1 "foo").mpr
    (Or.inr (Or.inl ⟨by rfl, by rfl⟩))

/-- Claim C7 (amended): the parenthesized form matches exactly when the
text between `◊(` and the following `)` is a nonempty run whose first
character is a letter, underscore or dot and whose remaining characters
are letters, digits, underscores or dots.  Dots may be leading, trailing
or consecutive, and segments after the first character may begin with
digits; only a digit (or other excluded character) in the first position
fails to match. -/
theorem matchParen_shape (cs : List Char) (n : String) (len : Nat) :
    matchParen cs = some (n, len) ↔
      ∃ (c : Char) (nm rest : List Char),
        cs = '◊' :: '(' :: c :: (nm ++ ')' :: rest) ∧
        isParenNameStart c = true ∧
        (∀ d ∈ nm, isParenNameChar d = true) ∧
        n = String.mk (c :: nm) ∧
        len = nm.length + 4 := by
  constructor
  · intro h
    match cs, h with
    | [], h => simp [matchParen] at h
    | [c0], h => simp [matchParen] at h
    | [c0, c1], h => simp [matchParen] at h
    | c0 :: c1 :: c2 :: rest0, h =>
      obtain ⟨h0, h1, h2, hn, hl, tl, htl⟩ := matchParen_elim h
      subst h0
      subst h1
      refine ⟨c2, rest0.takeWhile isParenNameChar, tl, ?_, h2, ?_, hn, by rw [hl]⟩
      · have : rest0 = rest0.takeWhile isParenNameChar ++ ')' :: tl := by
          rw [← htl, List.takeWhile_append_dropWhile]
        rw [← this]
      · intro d hd
        exact List.mem_takeWhile_imp hd
  · rintro ⟨c, nm, rest, rfl, hc, hnm, rfl, rfl⟩
    obtain ⟨htake, hdrop⟩ := takeWhile_append_block nm ')' rest hnm (by decide)
    simp [matchParen, hc, htake, hdrop]

/-- Counterexample to C7 as stated: consecutive dots between the
parentheses do produce a parenthesized-form token — `◊(foo..bar)` matches
and the tokenizer extracts `foo..bar` (a dotted name only the
parenthesized pattern can capture). -/
theorem matchParen_dots_cex :
    matchParen "◊(foo..bar)".data = some ("foo..bar", 11)
  ∧ extractFromLine "◊(foo..bar)".data 3 = some "foo..bar" := by
  constructor <;> rfl

/-- Witness for C7 (amended): a name with a leading dot, consecutive dots
and a trailing single-letter segment matches the parenthesized form. -/
theorem matchParen_shape_w :
    matchParen "◊(.a..b)".data = some (".a..b", 8) :=
  (matchParen_shape "◊(.a..b)".data ".a..b" 8).mpr
    ⟨'.', "a..b".data, [], by rfl, by rfl, by decide, by rfl, by rfl⟩

/-- Claim C8 (amended): every match's containment span begins at the
marker character and ends one column past the last matched character (the
closing parenthesis included in the parenthesized form); consequently a
cursor on the marker, on either parenthesis, or exactly one column past
the token still yields the token's name — provided no earlier marker
precedes the token on the line and (for the colon/bare forms) no further
token starts exactly at the one-past boundary, since abutting tokens
share that column and the earlier match wins it. -/
theorem tokenSpan_inclusive :
    (∀ p, (p = matchParen ∨ p = matchColon ∨ p = matchBare) →
      ∀ (cs : List Char) (m : TokMatch), m ∈ lineMatches p cs →
        (cs.drop m.start).head? = some '◊' ∧
        ∃ len, p (cs.drop m.start) = some (m.name, len) ∧ m.stop = m.start + len)
  ∧ (∀ (pre tail : List Char) (n : String) (len col : Nat),
      '◊' ∉ pre → matchParen tail = some (n, len) →
      pre.length ≤ col → col ≤ pre.length + len →
      extractFromLine (pre ++ tail) col = some n)
  ∧ (∀ (pre tail : List Char) (n : String) (len col : Nat),
      '◊' ∉ pre → matchColon tail = some (n, len) →
      (tail.drop len).head? ≠ some '◊' →
      pre.length ≤ col → col ≤ pre.length + len →
      extractFromLine (pre ++ tail) col = some n)
  ∧ (∀ (pre tail : List Char) (n : String) (len col : Nat),
      '◊' ∉ pre → matchBare tail = some (n, len) →
      (tail.drop len).head? ≠ some '◊' →
      pre.length ≤ col → col ≤ pre.length + len →
      extractFromLine (pre ++ tail) col = some n) := by
  refine ⟨?_, ?_, ?_, ?_⟩
  · intro p hp cs m hm
    have hp1 : ∀ cs n len, p cs = some (n, len) → 1 ≤ len := by
      rcases hp with rfl | rfl | rfl
      · exact fun _ _ _ h => matchParen_len_pos h
      · exact fun _ _ _ h => matchColon_len_pos h
      · exact fun _ _ _ h => matchBare_len_pos h
    have hhead : ∀ cs n len, p cs = some (n, len) → ∃ r, cs = '◊' :: r := by
      rcases hp with rfl | rfl | rfl
      · exact fun _ _ _ h => matchParen_head h
      · exact fun _ _ _ h => matchColon_head h
      · exact fun _ _ _ h => matchBare_head h
    obtain ⟨-, len, hpm, hstop⟩ := scanAux_mem_spec hp1 hm
    simp only [Nat.sub_zero] at hpm
    obtain ⟨r, hr⟩ := hhead _ _ _ hpm
    exact ⟨by rw [hr]; rfl, len, hpm, hstop⟩
  · intro pre tail n len col h1 h2 h3 h4
    exact extract_paren_at h1 h2 h3 h4
  · intro pre tail n len col h1 h2 h3 h4 h5
    exact extract_colon_at h1 h2 h3 h4 h5
  · intro pre tail n len col h1 h2 h3 h4 h5
    exact extract_bare_at h1 h2 h3 h4 h5

/-- Counterexample to C8 as stated: on the line `◊a◊b` the bare pattern
matches `◊a` over span `[0, 2]` and `◊b` over span `[2, 4]`; column 2 is
the marker column of the token `◊b`, yet extraction yields `a`, not `b` —
abutting tokens share the boundary column and the earlier match wins, so
a cursor on a token's marker does not always yield that token's name. -/
theorem tokenSpan_boundary_cex :
    lineMatches matchBare "◊a◊b".data = [⟨0, 2, "a"⟩, ⟨2, 4, "b"⟩]
  ∧ extractFromLine "◊a◊b".data 2 = some "a"
  ∧ extractFromLine "◊a◊b".data 2 ≠ some "b" := by
  refine ⟨by rfl, by rfl, ?_⟩
  intro h
  have h2 : extractFromLine "◊a◊b".data 2 = some "a" := by rfl
  rw [h2] at h
  exact absurd (Option.some.inj h) (by decide)

/-- Witness for C8 (amended): boundary columns on concrete lines — the
marker, the opening and closing parentheses, and one column past each
surface form all yield the token's name. -/
theorem tokenSpan_inclusive_w :
    extractFromLine "◊(a.b)".data 0 = some "a.b"
  ∧ extractFromLine "◊(a.b)".data 1 = some "a.b"
  ∧ extractFromLine "◊(a.b)".data 5 = some "a.b"
  ∧ extractFromLine "◊(a.b)".data 6 = some "a.b"
  ∧ extractFromLine ("x ".data ++ "◊foo: y".data) 6 = some "foo"
  ∧ extractFromLine ("x ".data ++ "◊foo".data) 6 = some "foo" := by
  refine ⟨?_, ?_, ?_, ?_, ?_, ?_⟩
  · exact tokenSpan_inclusive.2.1 [] "◊(a.b)".data "a.b" 6 0 (by decide) (by rfl)
      (by decide) (by decide)
  · exact tokenSpan_inclusive.2.1 [] "◊(a.b)".data "a.b" 6 1 (by decide) (by rfl)
      (by decide) (by decide)
  · exact tokenSpan_inclusive.2.1 [] "◊(a.b)".data "a.b" 6 5 (by decide) (by rfl)
      (by decide) (by decide)
  · exact tokenSpan_inclusive.2.1 [] "◊(a.b)".data "a.b" 6 6 (by decide) (by rfl)
      (by decide) (by decide)
  · exact tokenSpan_inclusive.2.2.1 "x ".data "◊foo: y".data "foo" 4 6 (by decide)
      (by rfl) (by decide) (by decide) (by decide)
  · exact tokenSpan_inclusive.2.2.2 "x ".data "◊foo".data "foo" 4 6 (by decide)
      (by rfl) (by decide) (by decide) (by decide)

end Dryck
